import Mathlib

/-!
Verification development for the `proposal-keyby` polyfill (the
`CompositeKey` interning engine, the `Map` polyfill with a `keyBy`
projection, and the `Record` façade).

The JavaScript source is embedded shallowly:

* JavaScript values that can be passed to `new CompositeKey(...)` are the
  inductive `JSValue`.  An object or function is represented by its
  reference identity (a `Nat` allocation number).  A `CompositeKey`
  handle is represented by the identity token it pins (`JSValue.ckey`);
  two live handles over the same token are indistinguishable to every
  operation modelled here, so the embedding identifies them.
* The interning trie (`AbstractNode` / `GCNode` / `EternalNode`) is the
  inductive `Node`: an optional minted identity token plus a child map
  (an association list from edge labels to child nodes).  Identity
  tokens are freshly allocated opaque objects; the embedding numbers
  them with a counter (`KeyState.next`), so token identity is `Nat`
  equality.
* The execution model is GC-free: no weak reference is ever cleared and
  no finalization callback runs.  This matches the claims, which are
  about constructions while all handles are live with no intervening
  reclamation.  A `WeakRef.deref` therefore always returns the referent,
  and parent pointers / purge walks (used only by reclamation) are not
  represented.
* Mutation is state passing: each descent returns the identity token it
  found together with the updated subtree and counter.
-/

namespace KeyBy

/-- A JavaScript symbol: `Symbol.for(name)` (registered in the global
registry under `name`) or a unique `Symbol()` identified by an
allocation number. `Symbol.keyFor` returns the registry name for
registered symbols and `undefined` for unique ones. -/
inductive JSSymbol where
  | registered : String → JSSymbol
  | unique : Nat → JSSymbol
deriving DecidableEq, Repr

/-- JavaScript values as seen by the polyfill.  `obj` covers plain
objects and functions, identified by reference; `ckey` is a
`CompositeKey` handle, identified by the identity token it holds. -/
inductive JSValue where
  | num : Int → JSValue
  | str : String → JSValue
  | bool : Bool → JSValue
  | null : JSValue
  | undefined : JSValue
  | sym : JSSymbol → JSValue
  | obj : Nat → JSValue
  | ckey : Nat → JSValue
deriving DecidableEq, Repr

/-- `isObject(v)`: `(typeof v === "object" && v !== null) || typeof v === "function"`.
A `CompositeKey` handle is an object. -/
def isObject : JSValue → Bool
  | .obj _ => true
  | .ckey _ => true
  | _ => false

/-- `typeof v === "symbol"`. -/
def isSymbolValue : JSValue → Bool
  | .sym _ => true
  | _ => false

/-- `Symbol.keyFor(v) !== undefined` (only ever asked of symbols):
true exactly for registered symbols. -/
def keyForDefined : JSValue → Bool
  | .sym (.registered _) => true
  | _ => false

/-- `valueWithIdentity(v)` from the source, parametrised by the host
capability probe `symbolsAsWeakMapKeys` (`saw`):

    isObject(v) || (symbolsAsWeakMapKeys && typeof v === "symbol"
                    && Symbol.keyFor(v) !== undefined)

Note that the source tests `Symbol.keyFor(v) !== undefined`, i.e. it
classifies *registered* symbols as identity-bearing. -/
def valueWithIdentity (saw : Bool) (v : JSValue) : Bool :=
  isObject v || (saw && isSymbolValue v && keyForDefined v)

/-- The classifier as the specification describes it (§4.1): when the
host permits weak references to symbols, *non-registered* symbols are
identity-bearing and registered symbols are eternal.  Kept alongside
`valueWithIdentity` to compare spec and code. -/
def specIdentityBearing (saw : Bool) (v : JSValue) : Bool :=
  isObject v || (saw && isSymbolValue v && !keyForDefined v)

/-- `CompositeKey.isKey` / the `#id in v` brand check. -/
def isCompositeKey : JSValue → Bool
  | .ckey _ => true
  | _ => false

/-- Edge labels of the interning trie.  A `GCNode` child map is keyed by
identity-bearing values (with a nested `CompositeKey` handle replaced by
its identity token) and by the private `#transitionMarker` object; an
`EternalNode` child map is keyed by eternal values and by the private
`#GCPlaceHolder` symbol.  The two private sentinels are unreachable from
user code, so they never coincide with a user-supplied value. -/
inductive Label where
  | val : JSValue → Label
  | token : Nat → Label
  | transition : Label
  | gcPlaceholder : Label
deriving DecidableEq, Repr

/-- Canonical GC-pass edge for an identity-bearing value:
`head = isCompositeKey(head) ? getKeyIdentity(head) : head`. -/
def canonLabel : JSValue → Label
  | .ckey i => .token i
  | v => .val v

/-- A trie node (`AbstractNode`): the lazily minted identity token
(`id`, a `WeakRef` in the source — never cleared in a GC-free
execution) and the child map (`nextNode`).  The `GCNode` /
`EternalNode` distinction only affects whether the child map holds its
keys weakly, which is unobservable without GC, so one node type
suffices; `Label` keeps the two key spaces apart. -/
inductive Node where
  | mk : Option Nat → List (Label × Node) → Node
deriving Repr

/-- The minted token of a node, if any. -/
def Node.tok : Node → Option Nat
  | .mk t _ => t

/-- The child map of a node. -/
def Node.children : Node → List (Label × Node)
  | .mk _ cs => cs

/-- A freshly constructed node: no token, empty child map. -/
def Node.empty : Node := .mk none []

/-- Lookup in a child map (`map.has` / `map.get`). -/
def findChild : List (Label × Node) → Label → Option Node
  | [], _ => none
  | (l, c) :: rest, k => if l = k then some c else findChild rest k

/-- Update in a child map, replacing an existing entry for the label or
appending a new one (`map.set`). -/
def setChild : List (Label × Node) → Label → Node → List (Label × Node)
  | [], k, v => [(k, v)]
  | (l, c) :: rest, k, v =>
      if l = k then (k, v) :: rest else (l, c) :: setChild rest k v

/-- `AbstractNode.getId(values, index)` without its assertion: return
the node's identity token, minting a fresh one when absent.  In a
GC-free execution `this.id?.deref()` returns the stored token whenever
one was minted, and the fresh `WeakRef` produced by `generateId()`
dereferences to the new token, so `assert(id !== undefined)` always
passes.  `next` is the allocation counter for fresh tokens. -/
def terminalGetId : Node → Nat → Nat × Node × Nat
  | .mk (some i) cs, next => (i, .mk (some i) cs, next)
  | .mk none cs, next => (next, .mk (some next) cs, next + 1)

/-- `AbstractNode.getId(values, index)` including its internal
assertion `assert(index >= values.length)`; a failed assertion is the
`InternalInvariantError` of the specification, modelled as `.error ()`. -/
def abstractGetId (n : Node) (values : List JSValue) (index next : Nat) :
    Except Unit (Nat × Node × Nat) :=
  if index ≥ values.length then .ok (terminalGetId n next) else .error ()

/-- `EternalNode.getId(values, index)`.  The structural recursion is on
`rest`, the still-unconsumed suffix of `values`; every call site
maintains `rest = values.drop index`, and `index` is threaded so the
terminal assertion is checked against the real index exactly as in the
source.  `mapGetOrInsert` inserts a fresh `EternalNode` before
descending; since the trie is a tree, descending into the child and
re-inserting the updated child afterwards yields the same final state. -/
def eternalGetId (saw : Bool) (values : List JSValue) :
    Node → List JSValue → Nat → Nat → Except Unit (Nat × Node × Nat)
  | n, [], index, next => abstractGetId n values index next
  | n, head :: rest, index, next =>
      let label := if valueWithIdentity saw head then Label.gcPlaceholder
                   else Label.val head
      let child := (findChild n.children label).getD Node.empty
      match eternalGetId saw values child rest (index + 1) next with
      | .error e => .error e
      | .ok (i, c, nx) => .ok (i, .mk n.tok (setChild n.children label c), nx)

/-- `GCNode.getId(values, index, seenEternal)`.  As in `eternalGetId`,
`rest = values.drop index` is the structural argument.  At the end of
the first pass a `seenEternal` descent transitions through the
`#transitionMarker` edge into the eternal sub-trie, restarting at
index 0 over the full sequence. -/
def gcGetId (saw : Bool) (values : List JSValue) :
    Node → List JSValue → Nat → Bool → Nat → Except Unit (Nat × Node × Nat)
  | n, [], index, seenEternal, next =>
      if seenEternal then
        let child := (findChild n.children .transition).getD Node.empty
        match eternalGetId saw values child values 0 next with
        | .error e => .error e
        | .ok (i, c, nx) =>
            .ok (i, .mk n.tok (setChild n.children .transition c), nx)
      else
        abstractGetId n values index next
  | n, head :: rest, index, seenEternal, next =>
      if valueWithIdentity saw head = false then
        gcGetId saw values n rest (index + 1) true next
      else
        let label := canonLabel head
        let child := (findChild n.children label).getD Node.empty
        match gcGetId saw values child rest (index + 1) seenEternal next with
        | .error e => .error e
        | .ok (i, c, nx) => .ok (i, .mk n.tok (setChild n.children label c), nx)

/-- The process-wide interning state: `CompositeKey.#root` together with
the fresh-token allocation counter. -/
structure KeyState where
  root : Node
  next : Nat

/-- The state at module initialisation: `new GCNode(null, null)` with no
token minted yet. -/
def initState : KeyState := ⟨Node.empty, 0⟩

/-- `new CompositeKey(...values)`: run the descent from the root,
`CompositeKey.#root.getId(values)`, returning the identity token stored
into the handle's `#id` slot and the updated interning state. -/
def newKey (saw : Bool) (σ : KeyState) (values : List JSValue) :
    Except Unit (Nat × KeyState) :=
  match gcGetId saw values σ.root values 0 false σ.next with
  | .error e => .error e
  | .ok (i, r, nx) => .ok (i, ⟨r, nx⟩)

/-- `a.#id`: private-slot access on a purported handle.  On anything
that is not a `CompositeKey` the access throws (the specification's
`MisuseError`), modelled as `.error ()`. -/
def readKeyId : JSValue → Except Unit Nat
  | .ckey i => .ok i
  | _ => .error ()

/-- `CompositeKey.equal(a, b)`: `a.#id === b.#id`, with `a.#id`
evaluated first.  Token identity is `Nat` equality in the embedding. -/
def CompositeKey_equal (a b : JSValue) : Except Unit Bool :=
  match readKeyId a with
  | .error e => .error e
  | .ok ia =>
      match readKeyId b with
      | .error e => .error e
      | .ok ib => .ok (decide (ia = ib))

/-! ## The canonical edge path of a sequence

The descent visits, in order: the canonical labels of the
identity-bearing values (first pass), then — when any eternal value was
seen — the `#transitionMarker` edge followed by one label per value of
the full sequence, with identity-bearing positions replaced by
`#GCPlaceHolder` (second pass). -/

/-- Labels consumed by the first (GC) pass: the identity-bearing values
in order, canonicalised. -/
def gcLabels (saw : Bool) : List JSValue → List Label
  | [] => []
  | v :: vs =>
      if valueWithIdentity saw v then canonLabel v :: gcLabels saw vs
      else gcLabels saw vs

/-- Whether the first pass skips any value, i.e. `seenEternal` is true
when the first pass reaches the end. -/
def hasEternal (saw : Bool) (vs : List JSValue) : Bool :=
  vs.any fun v => !valueWithIdentity saw v

/-- Labels consumed by the second (eternal) pass: one per value, with
identity-bearing positions replaced by the placeholder. -/
def eternalLabels (saw : Bool) : List JSValue → List Label
  | [] => []
  | v :: vs =>
      (if valueWithIdentity saw v then Label.gcPlaceholder else Label.val v) ::
        eternalLabels saw vs

/-- The full edge path from the root to the terminal node of a
sequence. -/
def keyPath (saw : Bool) (vs : List JSValue) : List Label :=
  gcLabels saw vs ++
    (if hasEternal saw vs then Label.transition :: eternalLabels saw vs else [])

/-- Interning a full edge path: walk the trie along the path, creating
missing nodes, and return the terminal node's token (minting it when
absent). -/
def internPath : Node → List Label → Nat → Nat × Node × Nat
  | n, [], next => terminalGetId n next
  | n, l :: ls, next =>
      let child := (findChild n.children l).getD Node.empty
      let r := internPath child ls next
      (r.1, .mk n.tok (setChild n.children l r.2.1), r.2.2)

/-- The token recorded in the trie at the end of an edge path, if the
path exists and its terminal node has minted one. -/
def lookupToken : Node → List Label → Option Nat
  | n, [] => n.tok
  | n, l :: ls =>
      match findChild n.children l with
      | some c => lookupToken c ls
      | none => none

/-- `new CompositeKey(...values)` as a total function: intern the
sequence's edge path.  `newKey` provably never hits its internal
assertion and equals `.ok` of this. -/
def internKey (saw : Bool) (σ : KeyState) (vs : List JSValue) : Nat × KeyState :=
  let r := internPath σ.root (keyPath saw vs) σ.next
  (r.1, ⟨r.2.1, r.2.2⟩)

/-! ## Basic trie lemmas -/

@[simp] theorem Node.tok_mk (t : Option Nat) (cs : List (Label × Node)) :
    (Node.mk t cs).tok = t := rfl

@[simp] theorem Node.children_mk (t : Option Nat) (cs : List (Label × Node)) :
    (Node.mk t cs).children = cs := rfl

@[simp] theorem findChild_setChild_self (cs : List (Label × Node)) (l : Label)
    (c : Node) : findChild (setChild cs l c) l = some c := by
  induction cs with
  | nil => simp [setChild, findChild]
  | cons hd tl ih =>
      obtain ⟨l', c'⟩ := hd
      by_cases h : l' = l <;> simp [setChild, findChild, h, ih]

theorem findChild_setChild_ne (cs : List (Label × Node)) {l l' : Label}
    (c : Node) (h : l' ≠ l) :
    findChild (setChild cs l c) l' = findChild cs l' := by
  induction cs with
  | nil => simp [setChild, findChild, Ne.symm h]
  | cons hd tl ih =>
      obtain ⟨k, c'⟩ := hd
      by_cases hk : k = l
      · subst hk
        simp [setChild, findChild, h, Ne.symm h]
      · by_cases hk' : k = l' <;> simp [setChild, findChild, hk, hk', ih, h]

@[simp] theorem lookupToken_empty (p : List Label) :
    lookupToken Node.empty p = none := by
  cases p <;> simp [lookupToken, Node.empty, findChild]

/-- After interning a path, the trie records the returned token at that
path. -/
theorem lookupToken_internPath (p : List Label) :
    ∀ (n : Node) (next : Nat),
      lookupToken (internPath n p next).2.1 p = some (internPath n p next).1 := by
  induction p with
  | nil =>
      intro n next
      cases n with
      | mk t cs => cases t <;> rfl
  | cons l ls ih =>
      intro n next
      simp only [internPath, lookupToken, Node.children_mk, findChild_setChild_self]
      exact ih _ next

/-- Interning a path whose terminal token already exists returns that
token and mints nothing. -/
theorem internPath_some (p : List Label) :
    ∀ (n : Node) (next j : Nat), lookupToken n p = some j →
      (internPath n p next).1 = j ∧ (internPath n p next).2.2 = next := by
  induction p with
  | nil =>
      intro n next j h
      cases n with
      | mk t cs =>
          cases t with
          | none => simp [lookupToken] at h
          | some i =>
              simp [lookupToken] at h
              subst h
              exact ⟨rfl, rfl⟩
  | cons l ls ih =>
      intro n next j h
      simp only [lookupToken] at h
      cases hc : findChild n.children l with
      | none => rw [hc] at h; exact absurd h (by simp)
      | some c =>
          rw [hc] at h
          simpa only [internPath, hc, Option.getD_some] using ih c next j h

/-- Interning a path with no recorded token mints the next fresh
token. -/
theorem internPath_none (p : List Label) :
    ∀ (n : Node) (next : Nat), lookupToken n p = none →
      (internPath n p next).1 = next ∧ (internPath n p next).2.2 = next + 1 := by
  induction p with
  | nil =>
      intro n next h
      cases n with
      | mk t cs =>
          cases t with
          | none => exact ⟨rfl, rfl⟩
          | some i => simp [lookupToken] at h
  | cons l ls ih =>
      intro n next h
      simp only [lookupToken] at h
      cases hc : findChild n.children l with
      | none =>
          simpa only [internPath, hc, Option.getD_none] using
            ih Node.empty next (lookupToken_empty ls)
      | some c =>
          rw [hc] at h
          simpa only [internPath, hc, Option.getD_some] using ih c next h

/-- Interning a path does not change the token recorded at any other
path. -/
theorem lookupToken_internPath_ne (p : List Label) :
    ∀ (q : List Label) (n : Node) (next : Nat), q ≠ p →
      lookupToken (internPath n p next).2.1 q = lookupToken n q := by
  induction p with
  | nil =>
      intro q n next hq
      cases q with
      | nil => exact absurd rfl hq
      | cons m ms =>
          cases n with
          | mk t cs => cases t <;> simp [internPath, terminalGetId, lookupToken]
  | cons l ls ih =>
      intro q n next hq
      cases q with
      | nil => simp [internPath, lookupToken]
      | cons m ms =>
          by_cases hm : m = l
          · subst hm
            have hms : ms ≠ ls := fun h => hq (by rw [h])
            simp only [internPath, lookupToken, Node.children_mk,
              findChild_setChild_self]
            cases hc : findChild n.children m with
            | none =>
                simpa only [hc, Option.getD_none, lookupToken_empty] using
                  ih ms Node.empty next hms
            | some c => simpa only [hc, Option.getD_some] using ih ms c next hms
          · simp only [internPath, lookupToken, Node.children_mk,
              findChild_setChild_ne _ _ hm]

/-! ## The descent follows the canonical edge path -/

@[simp] theorem gcLabels_nil (saw : Bool) : gcLabels saw [] = [] := rfl

theorem gcLabels_cons (saw : Bool) (v : JSValue) (vs : List JSValue) :
    gcLabels saw (v :: vs) =
      if valueWithIdentity saw v then canonLabel v :: gcLabels saw vs
      else gcLabels saw vs := rfl

@[simp] theorem hasEternal_nil (saw : Bool) : hasEternal saw [] = false := rfl

@[simp] theorem hasEternal_cons (saw : Bool) (v : JSValue) (vs : List JSValue) :
    hasEternal saw (v :: vs) =
      (!valueWithIdentity saw v || hasEternal saw vs) := by
  simp [hasEternal]

@[simp] theorem eternalLabels_nil (saw : Bool) : eternalLabels saw [] = [] := rfl

theorem eternalLabels_cons (saw : Bool) (v : JSValue) (vs : List JSValue) :
    eternalLabels saw (v :: vs) =
      (if valueWithIdentity saw v then Label.gcPlaceholder else Label.val v) ::
        eternalLabels saw vs := rfl

/-- `EternalNode.getId` performs exactly the interning of the
eternal-pass labels of the remaining suffix, and in particular never
fails its internal assertion (the index stays synchronised with the
suffix). -/
theorem eternalGetId_eq (saw : Bool) (values : List JSValue) :
    ∀ (rest : List JSValue) (n : Node) (index next : Nat),
      index + rest.length = values.length →
      eternalGetId saw values n rest index next =
        .ok (internPath n (eternalLabels saw rest) next) := by
  intro rest
  induction rest with
  | nil =>
      intro n index next h
      simp only [List.length_nil, Nat.add_zero] at h
      simp [eternalGetId, abstractGetId, internPath, h]
  | cons v rest ih =>
      intro n index next h
      simp only [List.length_cons] at h
      rw [eternalGetId, ih _ (index + 1) next (by omega)]
      simp [internPath, eternalLabels_cons]

/-- `GCNode.getId` performs exactly the interning of the GC-pass labels
of the remaining suffix followed — when eternal values were seen — by
the transition edge and the eternal-pass labels of the full sequence;
in particular it never fails its internal assertion. -/
theorem gcGetId_eq (saw : Bool) (values : List JSValue) :
    ∀ (rest : List JSValue) (n : Node) (index : Nat) (se : Bool) (next : Nat),
      index + rest.length = values.length →
      gcGetId saw values n rest index se next =
        .ok (internPath n
          (gcLabels saw rest ++
            (if (se || hasEternal saw rest) then
              Label.transition :: eternalLabels saw values else [])) next) := by
  intro rest
  induction rest with
  | nil =>
      intro n index se next h
      simp only [List.length_nil, Nat.add_zero] at h
      cases se with
      | false => simp [gcGetId, abstractGetId, internPath, h]
      | true =>
          have he := eternalGetId_eq saw values values
            ((findChild n.children Label.transition).getD Node.empty) 0 next (by simp)
          simp [gcGetId, he, internPath]
  | cons v rest ih =>
      intro n index se next h
      simp only [List.length_cons] at h
      cases hv : valueWithIdentity saw v with
      | false =>
          have hi := ih n (index + 1) true next (by omega)
          simp [gcGetId, hv, hi, gcLabels_cons]
      | true =>
          have hi := ih ((findChild n.children (canonLabel v)).getD Node.empty)
            (index + 1) se next (by omega)
          simp [gcGetId, hv, hi, gcLabels_cons, internPath]

/-- `new CompositeKey(...values)` never fails an internal assertion and
returns exactly the interning of the sequence's edge path. -/
theorem newKey_eq (saw : Bool) (σ : KeyState) (vs : List JSValue) :
    newKey saw σ vs = .ok (internKey saw σ vs) := by
  have h : gcGetId saw vs σ.root vs 0 false σ.next =
      .ok (internPath σ.root (keyPath saw vs) σ.next) :=
    gcGetId_eq saw vs vs σ.root 0 false σ.next (by simp)
  simp only [newKey, internKey]
  rw [h]

/-! ## Injectivity of the edge path -/

theorem canonLabel_inj {v w : JSValue} (h : canonLabel v = canonLabel w) : v = w := by
  cases v <;> cases w <;> simp_all [canonLabel]

@[simp] theorem canonLabel_ne_transition (v : JSValue) :
    canonLabel v ≠ Label.transition := by
  cases v <;> simp [canonLabel]

theorem transition_not_mem_gcLabels (saw : Bool) (vs : List JSValue) :
    Label.transition ∉ gcLabels saw vs := by
  induction vs with
  | nil => simp
  | cons v vs ih =>
      rw [gcLabels_cons]
      by_cases hv : valueWithIdentity saw v <;>
        simp [hv, ih, Ne.symm (canonLabel_ne_transition v)]

theorem transition_not_mem_eternalLabels (saw : Bool) (vs : List JSValue) :
    Label.transition ∉ eternalLabels saw vs := by
  induction vs with
  | nil => simp
  | cons v vs ih =>
      rw [eternalLabels_cons]
      by_cases hv : valueWithIdentity saw v <;> simp [hv, ih]

/-- Splitting around a separator that occurs in neither prefix. -/
theorem append_transition_inj :
    ∀ {xs ys xs2 ys2 : List Label},
      Label.transition ∉ xs → Label.transition ∉ ys →
      xs ++ Label.transition :: xs2 = ys ++ Label.transition :: ys2 →
      xs = ys ∧ xs2 = ys2 := by
  intro xs
  induction xs with
  | nil =>
      intro ys xs2 ys2 _ hy h
      cases ys with
      | nil => simpa using h
      | cons y ys =>
          simp only [List.nil_append, List.cons_append, List.cons.injEq] at h
          exact absurd h.1.symm (by simp at hy; exact fun hh => hy.1 hh.symm)
  | cons x xs ih =>
      intro ys xs2 ys2 hx hy h
      cases ys with
      | nil =>
          simp only [List.nil_append, List.cons_append, List.cons.injEq] at h
          exact absurd h.1.symm (by simp at hx; exact hx.1)
      | cons y ys =>
          simp only [List.cons_append, List.cons.injEq] at h
          obtain ⟨hxy, htail⟩ := h
          have hx' : Label.transition ∉ xs := fun hh => hx (List.mem_cons_of_mem _ hh)
          have hy' : Label.transition ∉ ys := fun hh => hy (List.mem_cons_of_mem _ hh)
          obtain ⟨h1, h2⟩ := ih hx' hy' htail
          exact ⟨by rw [hxy, h1], h2⟩

/-- A sequence is recovered from its two label passes. -/
theorem labels_inj (saw : Bool) :
    ∀ (s t : List JSValue),
      eternalLabels saw s = eternalLabels saw t →
      gcLabels saw s = gcLabels saw t → s = t := by
  intro s
  induction s with
  | nil =>
      intro t he _
      cases t with
      | nil => rfl
      | cons w t => rw [eternalLabels_cons] at he; exact absurd he (by simp)
  | cons v s ih =>
      intro t he hg
      cases t with
      | nil => rw [eternalLabels_cons] at he; exact absurd he (by simp)
      | cons w t =>
          rw [eternalLabels_cons, eternalLabels_cons] at he
          rw [gcLabels_cons, gcLabels_cons] at hg
          obtain ⟨hh, ht⟩ := List.cons_eq_cons.mp he
          cases hv : valueWithIdentity saw v <;> cases hw : valueWithIdentity saw w <;>
            rw [hv, hw] at hh hg
          · simp only [if_neg Bool.false_ne_true] at hh hg
            obtain rfl : v = w := by injection hh
            rw [ih t ht hg]
          · simp only [if_neg Bool.false_ne_true, if_pos rfl] at hh
            exact absurd hh (by simp)
          · simp only [if_neg Bool.false_ne_true, if_pos rfl] at hh
            exact absurd hh (by simp)
          · simp only [if_pos rfl] at hh hg
            obtain ⟨hcv, hgt⟩ := List.cons_eq_cons.mp hg
            rw [canonLabel_inj hcv, ih t ht hgt]

/-- A sequence with no eternal values is recovered from its GC pass. -/
theorem labels_inj_noEternal (saw : Bool) :
    ∀ (s t : List JSValue),
      hasEternal saw s = false → hasEternal saw t = false →
      gcLabels saw s = gcLabels saw t → s = t := by
  intro s
  induction s with
  | nil =>
      intro t _ ht hg
      cases t with
      | nil => rfl
      | cons w t =>
          simp only [hasEternal_cons, Bool.or_eq_false_iff, Bool.not_eq_false'] at ht
          rw [gcLabels_cons, if_pos ht.1] at hg
          exact absurd hg (by simp)
  | cons v s ih =>
      intro t hs ht hg
      simp only [hasEternal_cons, Bool.or_eq_false_iff, Bool.not_eq_false'] at hs
      rw [gcLabels_cons, if_pos hs.1] at hg
      cases t with
      | nil => exact absurd hg (by simp)
      | cons w t =>
          simp only [hasEternal_cons, Bool.or_eq_false_iff, Bool.not_eq_false'] at ht
          rw [gcLabels_cons, if_pos ht.1] at hg
          obtain ⟨hcv, hgt⟩ := List.cons_eq_cons.mp hg
          rw [canonLabel_inj hcv, ih t hs.2 ht.2 hgt]

/-- Distinct sequences have distinct edge paths: length and position are
part of identity, and mixing categories cannot collide. -/
theorem keyPath_inj (saw : Bool) {s t : List JSValue}
    (h : keyPath saw s = keyPath saw t) : s = t := by
  unfold keyPath at h
  cases hs : hasEternal saw s <;> cases ht : hasEternal saw t <;> rw [hs, ht] at h
  · simp only [if_neg Bool.false_ne_true, List.append_nil] at h
    exact labels_inj_noEternal saw s t hs ht h
  · exfalso
    simp only [if_neg Bool.false_ne_true, if_pos rfl, List.append_nil] at h
    have : Label.transition ∈ gcLabels saw s := by
      rw [h]; exact List.mem_append_right _ (List.mem_cons_self _ _)
    exact transition_not_mem_gcLabels saw s this
  · exfalso
    simp only [if_neg Bool.false_ne_true, if_pos rfl, List.append_nil] at h
    have : Label.transition ∈ gcLabels saw t := by
      rw [← h]; exact List.mem_append_right _ (List.mem_cons_self _ _)
    exact transition_not_mem_gcLabels saw t this
  · simp only [if_pos rfl] at h
    obtain ⟨hg, he⟩ := append_transition_inj
      (transition_not_mem_gcLabels saw s) (transition_not_mem_gcLabels saw t) h
    exact labels_inj saw s t he hg

/-! ## The interning invariant -/

/-- Every token recorded in the trie was allocated below the current
counter. -/
def TokensBelow (n : Node) (b : Nat) : Prop :=
  ∀ p i, lookupToken n p = some i → i < b

/-- Distinct paths never share a recorded token. -/
def TokenInj (n : Node) : Prop :=
  ∀ p q i, lookupToken n p = some i → lookupToken n q = some i → p = q

/-- The interning invariant of the process-wide state. -/
def Inv (σ : KeyState) : Prop := TokensBelow σ.root σ.next ∧ TokenInj σ.root

theorem inv_initState : Inv initState := by
  constructor
  · intro p i h
    simp [initState, lookupToken_empty] at h
  · intro p q i h
    simp [initState, lookupToken_empty] at h

/-- Interning one path preserves the invariant. -/
theorem internPath_inv {n : Node} {next : Nat}
    (hb : TokensBelow n next) (hi : TokenInj n) (p : List Label) :
    TokensBelow (internPath n p next).2.1 (internPath n p next).2.2 ∧
      TokenInj (internPath n p next).2.1 := by
  cases hl : lookupToken n p with
  | some j =>
      obtain ⟨h1, h2⟩ := internPath_some p n next j hl
      have hsame : ∀ q, lookupToken (internPath n p next).2.1 q = lookupToken n q := by
        intro q
        by_cases hq : q = p
        · subst hq
          rw [lookupToken_internPath, h1, hl]
        · exact lookupToken_internPath_ne p q n next hq
      constructor
      · intro q i h
        rw [hsame] at h
        rw [h2]
        exact hb q i h
      · intro a b i ha hb'
        rw [hsame] at ha hb'
        exact hi a b i ha hb'
  | none =>
      obtain ⟨h1, h2⟩ := internPath_none p n next hl
      have hp : lookupToken (internPath n p next).2.1 p = some next := by
        rw [lookupToken_internPath, h1]
      constructor
      · intro q i h
        rw [h2]
        by_cases hq : q = p
        · subst hq
          rw [hp] at h
          injection h with h
          omega
        · rw [lookupToken_internPath_ne p q n next hq] at h
          have := hb q i h
          omega
      · intro a b i ha hb'
        by_cases hqa : a = p <;> by_cases hqb : b = p
        · rw [hqa, hqb]
        · exfalso
          rw [hqa, hp] at ha
          injection ha with ha
          rw [lookupToken_internPath_ne p b n next hqb] at hb'
          rw [← ha] at hb'
          exact absurd (hb b next hb') (by omega)
        · exfalso
          rw [hqb, hp] at hb'
          injection hb' with hb'
          rw [lookupToken_internPath_ne p a n next hqa] at ha
          rw [← hb'] at ha
          exact absurd (hb a next ha) (by omega)
        · rw [lookupToken_internPath_ne p a n next hqa] at ha
          rw [lookupToken_internPath_ne p b n next hqb] at hb'
          exact hi a b i ha hb'

/-- One key construction preserves the invariant. -/
theorem internKey_inv {σ : KeyState} (h : Inv σ) (saw : Bool) (vs : List JSValue) :
    Inv (internKey saw σ vs).2 :=
  internPath_inv h.1 h.2 (keyPath saw vs)

/-- Re-constructing a key from the same sequence, back to back, returns
the token recorded by the first construction. -/
theorem internKey_stable (saw : Bool) (σ : KeyState) (s : List JSValue) :
    (internKey saw (internKey saw σ s).2 s).1 = (internKey saw σ s).1 :=
  (internPath_some (keyPath saw s) _ _ _
    (lookupToken_internPath (keyPath saw s) σ.root σ.next)).1

/-- Constructing keys from distinct sequences, back to back, returns
distinct tokens. -/
theorem internKey_ne {σ : KeyState} (hInv : Inv σ) (saw : Bool)
    {s t : List JSValue} (hne : s ≠ t) :
    (internKey saw (internKey saw σ s).2 t).1 ≠ (internKey saw σ s).1 := by
  have hpne : keyPath saw t ≠ keyPath saw s := fun h => hne (keyPath_inj saw h).symm
  have h1 : lookupToken ((internKey saw σ s).2).root (keyPath saw s) =
      some (internKey saw σ s).1 :=
    lookupToken_internPath (keyPath saw s) σ.root σ.next
  have h2 : lookupToken ((internKey saw (internKey saw σ s).2 t).2).root (keyPath saw t) =
      some (internKey saw (internKey saw σ s).2 t).1 :=
    lookupToken_internPath (keyPath saw t) _ _
  have h3 : lookupToken ((internKey saw (internKey saw σ s).2 t).2).root (keyPath saw s) =
      some (internKey saw σ s).1 := by
    show lookupToken
      (internPath ((internKey saw σ s).2).root (keyPath saw t)
        ((internKey saw σ s).2).next).2.1 (keyPath saw s) = some (internKey saw σ s).1
    rw [lookupToken_internPath_ne (keyPath saw t) (keyPath saw s) _ _ hpne.symm]
    exact h1
  have hinv2 : Inv (internKey saw (internKey saw σ s).2 t).2 :=
    internKey_inv (internKey_inv hInv saw s) saw t
  intro heq
  rw [heq] at h2
  exact hne (keyPath_inj saw (hinv2.2 _ _ _ h3 h2))

/-- Unpack a successful `newKey` run into its total counterpart. -/
theorem newKey_ok {saw : Bool} {σ : KeyState} {s : List JSValue} {i : Nat}
    {σ' : KeyState} (h : newKey saw σ s = .ok (i, σ')) :
    (internKey saw σ s).1 = i ∧ (internKey saw σ s).2 = σ' := by
  rw [newKey_eq] at h
  injection h with h
  exact ⟨congrArg Prod.fst h, congrArg Prod.snd h⟩

@[simp] theorem CompositeKey_equal_ckey (i j : Nat) :
    CompositeKey_equal (.ckey i) (.ckey j) = .ok (decide (i = j)) := rfl

/-! ## The `Map` polyfill with a `keyBy` projection

`MapPolyfill` wraps a native `Map` (`#state`) whose keys are the
projected values; when the projection yields a composite key handle the
handle's identity token becomes the internal key.  Internal keys are
either such a token or an ordinary value compared by `SameValueZero`;
a user-supplied value is never the (unreachable) token object, so the
two key spaces are disjoint. -/

/-- An internal key of the backing map. -/
inductive IKey where
  | val : JSValue → IKey
  | token : Nat → IKey
deriving DecidableEq, Repr

/-- The backing native `Map`: insertion-ordered entries
`internal key ↦ (original key, value)`. -/
structure MapState where
  entries : List (IKey × JSValue × JSValue)
deriving Repr

/-- `Map.prototype.get` of the backing map. -/
def omGet : List (IKey × JSValue × JSValue) → IKey → Option (JSValue × JSValue)
  | [], _ => none
  | (k', pr) :: rest, k => if k' = k then some pr else omGet rest k

/-- `Map.prototype.has` of the backing map. -/
def omHas (es : List (IKey × JSValue × JSValue)) (k : IKey) : Bool :=
  (omGet es k).isSome

/-- `Map.prototype.set` of the backing map: overwrite in place, or
append a new entry. -/
def omSet : List (IKey × JSValue × JSValue) → IKey → JSValue × JSValue →
    List (IKey × JSValue × JSValue)
  | [], k, pair => [(k, pair)]
  | (k', pr) :: rest, k, pair =>
      if k' = k then (k', pair) :: rest else (k', pr) :: omSet rest k pair

/-- `Map.prototype.delete` of the backing map. -/
def omDelete : List (IKey × JSValue × JSValue) → IKey →
    Bool × List (IKey × JSValue × JSValue)
  | [], _ => (false, [])
  | (k', pr) :: rest, k =>
      if k' = k then (true, rest)
      else
        let r := omDelete rest k
        (r.1, (k', pr) :: r.2)

/-- A configured `keyBy` function.  It may construct composite keys
(scenario S4 does), so it threads the interning state. -/
def Proj := JSValue → KeyState → JSValue × KeyState

/-- The wrapped `#keyBy` installed by the constructor when a `keyBy`
option is configured: apply the user projection, then
`if (isCompositeKey(k)) k = getKeyIdentity(k)` — substitute the
identity token as the internal key. -/
def applyKeyBy (p : Proj) (v : JSValue) (σ : KeyState) : IKey × KeyState :=
  match p v σ with
  | (.ckey i, σ') => (.token i, σ')
  | (k, σ') => (.val k, σ')

/-- `get(k)`: `this.#state.get(this.#keyBy(k))?.[1]`. -/
def mpGet (p : Proj) (m : MapState) (σ : KeyState) (k : JSValue) :
    Option JSValue × KeyState :=
  match applyKeyBy p k σ with
  | (ik, σ') => ((omGet m.entries ik).map Prod.snd, σ')

/-- `has(k)`: `this.#state.has(this.#keyBy(k))`. -/
def mpHas (p : Proj) (m : MapState) (σ : KeyState) (k : JSValue) :
    Bool × KeyState :=
  match applyKeyBy p k σ with
  | (ik, σ') => (omHas m.entries ik, σ')

/-- `set(k, v)`: `this.#state.set(this.#keyBy(k), [k, v])`. -/
def mpSet (p : Proj) (m : MapState) (σ : KeyState) (k v : JSValue) :
    MapState × KeyState :=
  match applyKeyBy p k σ with
  | (ik, σ') => (⟨omSet m.entries ik (k, v)⟩, σ')

/-- `delete(k)`: `return this.#state.delete(k)`.  Note that the source
does *not* apply `#keyBy` here, unlike `get`/`has`/`set`: the raw
argument is compared against the internal keys.  A user value is never
the token object, so it corresponds to `IKey.val k`. -/
def mpDelete (m : MapState) (k : JSValue) : Bool × MapState :=
  match omDelete m.entries (.val k) with
  | (b, es) => (b, ⟨es⟩)

/-- `size`: the backing map's size. -/
def mpSize (m : MapState) : Nat := m.entries.length

/-- What `entries()` (and `[Symbol.iterator]`) yields: the stored
original-key/value pairs in insertion order. -/
def mpEntriesList (m : MapState) : List (JSValue × JSValue) :=
  m.entries.map Prod.snd

/-- What `keys()` yields. -/
def mpKeysList (m : MapState) : List JSValue :=
  m.entries.map fun e => e.2.1

/-- What `values()` yields. -/
def mpValuesList (m : MapState) : List JSValue :=
  m.entries.map fun e => e.2.2

/-- Association-list lookup, modelling property access `o[k]` on a
fixed set of own properties. -/
def propLookup {α : Type} [DecidableEq α] {β : Type} :
    List (α × β) → α → Option β
  | [], _ => none
  | (k, v) :: rest, a => if k = a then some v else propLookup rest a

/-- The two objects of scenario S4 by reference identity: object 1 has
properties x = 0, y = 0, z = 1; object 2 has x = 0, y = 0, z = 99. -/
def s4props : Nat → List (String × JSValue)
  | 1 => [("x", .num 0), ("y", .num 0), ("z", .num 1)]
  | 2 => [("x", .num 0), ("y", .num 0), ("z", .num 99)]
  | _ => []

/-- Property access `o.name` on the scenario S4 objects. -/
def s4prop (n : Nat) (name : String) : JSValue :=
  (propLookup (s4props n) name).getD .undefined

/-- The projection of scenario S4:
`keyBy: v => new CompositeKey(v.x, v.y)` (key construction by the total
interning function, justified by `newKey_eq`). -/
def s4keyBy (saw : Bool) : Proj := fun v σ =>
  match v with
  | .obj n =>
      match internKey saw σ [s4prop n "x", s4prop n "y"] with
      | (i, σ') => (.ckey i, σ')
  | v => (v, σ)

/-- A stateless projection `keyBy: v => v.uuid`, where every object in
scope has a `uuid` property equal to 1. -/
def uuidProj : Proj := fun v σ =>
  match v with
  | .obj _ => (.num 1, σ)
  | v => (v, σ)

/-! ## The `Record` façade

`keyForRecord(r)` builds a composite key over the private
`RecordNamespace` symbol followed by the record's own keys — with the
added `Symbol.keyBy` method filtered out, leaving the user-supplied
properties — sorted by `compareKeys` and flattened key-then-value,
each value passed through `trySymbol`. -/

/-- A property key of a record: a string or a symbol. -/
inductive PropKey where
  | strKey : String → PropKey
  | symKey : JSSymbol → PropKey
deriving DecidableEq, Repr

/-- The host's `String.prototype.localeCompare` is not one fixed
function: ECMA-402 only requires it to be a *consistent* comparison
(a total preorder), and it must return 0 for distinct canonically
equivalent strings (e.g. precomposed U+00E9 versus "e" + combining
U+0301).  The embedding therefore abstracts it as a parameter
`lc : String → String → Int`; the next three predicates name the
properties a host collation may or may not have. -/
def CollationTotal (lc : String → String → Int) : Prop :=
  ∀ a b, lc a b ≤ 0 ∨ lc b a ≤ 0

/-- Transitivity of the non-positive half of a collation; guaranteed by
ECMA-402's consistent-comparison requirement. -/
def CollationTrans (lc : String → String → Int) : Prop :=
  ∀ a b c, lc a b ≤ 0 → lc b c ≤ 0 → lc a c ≤ 0

/-- A collation that never ties distinct strings.  ECMA-402 does *not*
guarantee this: canonically equivalent spellings must tie. -/
def CollationNoTies (lc : String → String → Int) : Prop :=
  ∀ a b, lc a b ≤ 0 → lc b a ≤ 0 → a = b

/-- Lexicographic code-point comparison: one concrete collation with no
ties, used to instantiate `lc` in witnesses.  (Equality is tested
first so the function evaluates on equal strings.) -/
def lexCompare (a b : String) : Int :=
  if a = b then 0 else if a < b then -1 else 1

/-- `symbolOrder(s1, s2)`: registered symbols compare by registry name
(`Symbol.keyFor`) under the host collation `lc`, a registered symbol
sorts before a non-registered one, and non-registered symbols compare
by the process-wide first-seen numbering `numberForSymbol`.  The
numbering table is abstracted as `f`; the source assigns
`nextNumber++` on first sight, so it is injective. -/
def symbolOrder (lc : String → String → Int) (f : Nat → Nat) :
    JSSymbol → JSSymbol → Int
  | .registered a, .registered b => lc a b
  | .registered _, .unique _ => -1
  | .unique _, .registered _ => 1
  | .unique a, .unique b => (f a : Int) - (f b : Int)

/-- `compareKeys(k1, k2)`: symbol keys sort before string keys; within
each category by `symbolOrder` / `localeCompare` (the host collation
`lc`). -/
def compareKeys (lc : String → String → Int) (f : Nat → Nat) :
    PropKey → PropKey → Int
  | .symKey s1, .symKey s2 => symbolOrder lc f s1 s2
  | .symKey _, .strKey _ => -1
  | .strKey _, .symKey _ => 1
  | .strKey a, .strKey b => lc a b

/-- The private `RecordNamespace` symbol (a fresh non-registered symbol
unreachable from user code). -/
def recordNamespace : JSValue := .sym (.unique 0)

/-- A property key used as a value inside the composite-key sequence. -/
def propKeyToValue : PropKey → JSValue
  | .strKey s => .str s
  | .symKey s => .sym s

/-- The argument sequence of the composite key `keyForRecord(r)`
builds: `Array.prototype.sort` with a consistent comparator produces
the `compareKeys`-sorted key list, then each key is flattened to
`[k, trySymbol(r[k])]`.  `trySymbol` is abstracted as `resolve`: for a
fixed heap the protocol lookup (with its `ck ??= ...` caching) is a
function of the value. -/
def keyForRecordSeq (lc : String → String → Int) (f : Nat → Nat)
    (resolve : JSValue → JSValue)
    (props : List (PropKey × JSValue)) : List JSValue :=
  recordNamespace ::
    (List.insertionSort (fun a b => compareKeys lc f a b ≤ 0)
        (props.map Prod.fst)).flatMap
      fun k => [propKeyToValue k, resolve ((propLookup props k).getD .undefined)]

/-! ## When is the record comparator a total order?

`compareKeys` is always a total preorder when the host collation is
consistent (as ECMA-402 requires).  It is *antisymmetric* — so that
`Array.prototype.sort` has a unique result independent of input
order — only when the collation never ties distinct strings; a real
`localeCompare` ties canonically equivalent strings, and the stable
sort then preserves insertion order among them. -/

theorem lexCompare_nonpos_iff (a b : String) :
    lexCompare a b ≤ 0 ↔ (a = b ∨ a < b) := by
  unfold lexCompare
  split_ifs with h1 h2
  · simp [h1]
  · simp [h2]
  · simp [h1, h2]

theorem lexCompare_noTies : CollationNoTies lexCompare := by
  intro a b h1 h2
  rw [lexCompare_nonpos_iff] at h1 h2
  rcases h1 with h1 | h1
  · exact h1
  · rcases h2 with h2 | h2
    · exact h2.symm
    · exact absurd h2 (lt_asymm h1)

theorem lexCompare_trans : CollationTrans lexCompare := by
  intro a b c h1 h2
  rw [lexCompare_nonpos_iff] at h1 h2 ⊢
  rcases h1 with rfl | h1
  · exact h2
  · rcases h2 with rfl | h2
    · exact Or.inr h1
    · exact Or.inr (lt_trans h1 h2)

theorem lexCompare_total : CollationTotal lexCompare := by
  intro a b
  rw [lexCompare_nonpos_iff, lexCompare_nonpos_iff]
  rcases lt_trichotomy a b with h | h | h
  · exact Or.inl (Or.inr h)
  · exact Or.inl (Or.inl h)
  · exact Or.inr (Or.inr h)

theorem compareKeys_le_total {lc : String → String → Int}
    (hlc : CollationTotal lc) (f : Nat → Nat) (a b : PropKey) :
    compareKeys lc f a b ≤ 0 ∨ compareKeys lc f b a ≤ 0 := by
  rcases a with a | (a | a) <;> rcases b with b | (b | b) <;>
    simp only [compareKeys, symbolOrder] <;>
    first
      | omega
      | exact hlc a b

theorem compareKeys_le_trans {lc : String → String → Int}
    (hlc : CollationTrans lc) {f : Nat → Nat} {a b c : PropKey}
    (h1 : compareKeys lc f a b ≤ 0) (h2 : compareKeys lc f b c ≤ 0) :
    compareKeys lc f a c ≤ 0 := by
  rcases a with a | (a | a) <;> rcases b with b | (b | b) <;>
    rcases c with c | (c | c) <;>
    simp only [compareKeys, symbolOrder] at h1 h2 ⊢ <;>
    first
      | omega
      | exact hlc _ _ _ h1 h2

theorem compareKeys_le_antisymm {lc : String → String → Int}
    (hlc : CollationNoTies lc) {f : Nat → Nat} (hf : Function.Injective f)
    {a b : PropKey} (h1 : compareKeys lc f a b ≤ 0)
    (h2 : compareKeys lc f b a ≤ 0) : a = b := by
  rcases a with a | (a | a) <;> rcases b with b | (b | b) <;>
    simp only [compareKeys, symbolOrder] at h1 h2 <;>
    first
      | (exfalso; omega)
      | rw [hlc a b h1 h2]
      | rw [hf (show f a = f b by omega)]

/-- With a consistent collation that never ties distinct strings and
the injective symbol numbering, any two permutations of a key list
sort identically: the comparator is a total order, so the sorted list
is unique. -/
theorem insertionSort_eq_of_perm {lc : String → String → Int}
    (htot : CollationTotal lc) (htr : CollationTrans lc)
    (hnt : CollationNoTies lc) {f : Nat → Nat} (hf : Function.Injective f)
    {ks1 ks2 : List PropKey} (h : ks1.Perm ks2) :
    List.insertionSort (fun a b => compareKeys lc f a b ≤ 0) ks1 =
      List.insertionSort (fun a b => compareKeys lc f a b ≤ 0) ks2 := by
  haveI : IsTotal PropKey (fun a b => compareKeys lc f a b ≤ 0) :=
    ⟨compareKeys_le_total htot f⟩
  haveI : IsTrans PropKey (fun a b => compareKeys lc f a b ≤ 0) :=
    ⟨fun _ _ _ => compareKeys_le_trans htr⟩
  haveI : IsAntisymm PropKey (fun a b => compareKeys lc f a b ≤ 0) :=
    ⟨fun _ _ => compareKeys_le_antisymm hnt hf⟩
  exact List.eq_of_perm_of_sorted
    (((List.perm_insertionSort _ ks1).trans h).trans
      (List.perm_insertionSort _ ks2).symm)
    (List.sorted_insertionSort _ ks1) (List.sorted_insertionSort _ ks2)

/-- Property lookup is invariant under permutation of a record's
(duplicate-free) property list. -/
theorem propLookup_perm {α β : Type} [DecidableEq α] {l1 l2 : List (α × β)}
    (h : l1.Perm l2) :
    ∀ (_ : (l1.map Prod.fst).Nodup) (k : α), propLookup l1 k = propLookup l2 k := by
  induction h with
  | nil => intro _ k; rfl
  | cons x h ih =>
      intro hnd k
      obtain ⟨kx, vx⟩ := x
      simp only [List.map_cons, List.nodup_cons] at hnd
      by_cases hk : kx = k <;> simp [propLookup, hk, ih hnd.2 k]
  | swap x y l =>
      intro hnd k
      obtain ⟨kx, vx⟩ := x
      obtain ⟨ky, vy⟩ := y
      have hne : ky ≠ kx := by
        simp only [List.map_cons, List.nodup_cons, List.mem_cons] at hnd
        exact fun hh => hnd.1 (Or.inl hh)
      by_cases h1 : ky = k <;> by_cases h2 : kx = k
      · exact absurd (h1.trans h2.symm) hne
      · simp [propLookup, h1, h2]
      · simp [propLookup, h1, h2]
      · simp [propLookup, h1, h2]
  | trans h1 h2 ih1 ih2 =>
      intro hnd k
      rw [ih1 hnd k, ih2 (((h1.map Prod.fst).nodup_iff).mp hnd) k]

/-- Under a tie-free consistent collation, two records built from the
same properties in different insertion orders build their composite
key from the same argument sequence. -/
theorem keyForRecordSeq_perm {lc : String → String → Int}
    (htot : CollationTotal lc) (htr : CollationTrans lc)
    (hnt : CollationNoTies lc) {f : Nat → Nat} (hf : Function.Injective f)
    (resolve : JSValue → JSValue) {props1 props2 : List (PropKey × JSValue)}
    (hperm : props1.Perm props2) (hnd : (props1.map Prod.fst).Nodup) :
    keyForRecordSeq lc f resolve props1 = keyForRecordSeq lc f resolve props2 := by
  unfold keyForRecordSeq
  rw [insertionSort_eq_of_perm htot htr hnt hf (hperm.map Prod.fst)]
  have hl : ∀ k, propLookup props1 k = propLookup props2 k :=
    propLookup_perm hperm hnd
  simp only [hl]

/-! ## A host collation with an ECMA-402 tie -/

/-- The precomposed spelling of "é": the single code point U+00E9. -/
def eAcute : String := "é"

/-- The decomposed spelling of "é": "e" followed by the combining acute
accent U+0301.  A distinct JS string — and a distinct property key —
canonically equivalent to `eAcute`. -/
def eCombining : String := "é"

/-- Canonical decomposition restricted to the two spellings above. -/
def decomposeEAcute (s : String) : String :=
  if s = eAcute then eCombining else s

/-- A host collation as ECMA-402 mandates it: canonically equivalent
strings compare equal, realised by decomposing U+00E9 before code-point
comparison.  It is a consistent comparison (`tieCollation_total`,
`tieCollation_trans`) but ties the distinct strings `eAcute` and
`eCombining`. -/
def tieCollation (a b : String) : Int :=
  lexCompare (decomposeEAcute a) (decomposeEAcute b)

theorem tieCollation_total : CollationTotal tieCollation :=
  fun a b => lexCompare_total (decomposeEAcute a) (decomposeEAcute b)

theorem tieCollation_trans : CollationTrans tieCollation :=
  fun _ _ _ h1 h2 => lexCompare_trans _ _ _ h1 h2

/-- The two records of the counterexample: the same two key→value
properties supplied in the two insertion orders. -/
def tieProps1 : List (PropKey × JSValue) :=
  [(.strKey eAcute, .num 1), (.strKey eCombining, .num 2)]

/-- The same properties as `tieProps1`, opposite insertion order. -/
def tieProps2 : List (PropKey × JSValue) :=
  [(.strKey eCombining, .num 2), (.strKey eAcute, .num 1)]

/-- The composite-key argument sequence `keyForRecord` builds for the
first record under the tying collation. -/
def tieSeq1 : List JSValue :=
  keyForRecordSeq tieCollation (fun n => n) (fun v => v) tieProps1

/-- The composite-key argument sequence for the second record. -/
def tieSeq2 : List JSValue :=
  keyForRecordSeq tieCollation (fun n => n) (fun v => v) tieProps2

/-- The first record's key construction from the initial state. -/
def tieKey1 : Nat × KeyState := internKey false initState tieSeq1

/-- The second record's key construction, immediately after. -/
def tieKey2 : Nat × KeyState := internKey false tieKey1.2 tieSeq2

/-! ## Claims -/

/-- Claim C1: for every two input sequences `s` and `t` that differ in
some element or in length — element equality being structural, i.e.
`SameValueZero` with composite-key handles identified by their tokens,
which is `JSValue` equality in this embedding — the composite keys
constructed from `s` and then from `t` compare unequal under
`CompositeKey.equal`: the two-pass descent never maps unequal sequences
to the same identity token.  `Inv` holds of every reachable interning
state (`inv_initState`, `internKey_inv`). -/
theorem construct_distinct_unequal (saw : Bool) (σ : KeyState)
    (hInv : Inv σ) (s t : List JSValue) (hne : s ≠ t)
    {i1 i2 : Nat} {σ1 σ2 : KeyState}
    (h1 : newKey saw σ s = .ok (i1, σ1))
    (h2 : newKey saw σ1 t = .ok (i2, σ2)) :
    CompositeKey_equal (.ckey i1) (.ckey i2) = .ok false := by
  obtain ⟨e1, e1'⟩ := newKey_ok h1
  obtain ⟨e2, _⟩ := newKey_ok h2
  have hne' : i2 ≠ i1 := by
    rw [← e1, ← e2, ← e1']
    exact internKey_ne hInv saw hne
  rw [CompositeKey_equal_ckey, decide_eq_false (Ne.symm hne')]

theorem construct_distinct_unequal_witness :
    CompositeKey_equal (.ckey 0) (.ckey 1) = .ok false :=
  construct_distinct_unequal false initState inv_initState
    [.num 0] [.num 1] (by decide) rfl rfl

/-- Claim C2: for every input sequence `s` (including the empty one),
constructing two composite keys from `s` back to back — with no
intervening reclamation, which is the GC-free execution model — yields
handles that compare equal under `CompositeKey.equal`: the second
descent reaches the same terminal node and returns the token minted by
the first. -/
theorem construct_twice_equal (saw : Bool) (σ : KeyState) (s : List JSValue)
    {i1 i2 : Nat} {σ1 σ2 : KeyState}
    (h1 : newKey saw σ s = .ok (i1, σ1))
    (h2 : newKey saw σ1 s = .ok (i2, σ2)) :
    CompositeKey_equal (.ckey i1) (.ckey i2) = .ok true := by
  obtain ⟨e1, e1'⟩ := newKey_ok h1
  obtain ⟨e2, _⟩ := newKey_ok h2
  have h12 : i2 = i1 := by
    rw [← e1, ← e2, ← e1']
    exact internKey_stable saw σ s
  rw [CompositeKey_equal_ckey, h12]
  simp

theorem construct_twice_equal_witness :
    CompositeKey_equal (.ckey 0) (.ckey 0) = .ok true :=
  construct_twice_equal false initState [] rfl rfl

/-- Claim C3 (code behaviour at the failing input): on a host that
permits symbols as weak-map keys, `valueWithIdentity` — which tests
`Symbol.keyFor(v) !== undefined` — classifies a *registered* symbol as
identity-bearing and a non-registered symbol as eternal, the exact
reverse of the specification's classifier (spelled out here as
`specIdentityBearing`). -/
theorem valueWithIdentity_symbols :
    valueWithIdentity true (.sym (.registered "a")) = true ∧
      valueWithIdentity true (.sym (.unique 0)) = false ∧
      specIdentityBearing true (.sym (.registered "a")) = false ∧
      specIdentityBearing true (.sym (.unique 0)) = true := by
  decide

/-- Claim C4: for all values `x` and sequences `a`, `b`, the keys built
from `[x, key(a)]` and `[x, key(b)]` are equal under
`CompositeKey.equal` iff `key(a)` and `key(b)` are: the nested handle
is reduced to its identity token during the descent, so structural
equality is transitive through nesting. -/
theorem nested_key_equality (saw : Bool) (σ : KeyState) (hInv : Inv σ)
    (x : JSValue) (la lb : List JSValue)
    {ia ib i1 i2 : Nat} {σa σb σc σd : KeyState}
    (ha : newKey saw σ la = .ok (ia, σa))
    (hb : newKey saw σa lb = .ok (ib, σb))
    (h1 : newKey saw σb [x, .ckey ia] = .ok (i1, σc))
    (h2 : newKey saw σc [x, .ckey ib] = .ok (i2, σd)) :
    (CompositeKey_equal (.ckey i1) (.ckey i2) = .ok true ↔
      CompositeKey_equal (.ckey ia) (.ckey ib) = .ok true) := by
  have hinvb : Inv σb := by
    obtain ⟨_, ea'⟩ := newKey_ok ha
    obtain ⟨_, eb'⟩ := newKey_ok hb
    rw [← eb', ← ea']
    exact internKey_inv (internKey_inv hInv saw la) saw lb
  obtain ⟨e1, e1'⟩ := newKey_ok h1
  obtain ⟨e2, _⟩ := newKey_ok h2
  rw [CompositeKey_equal_ckey, CompositeKey_equal_ckey]
  constructor
  · intro h
    have h12 : i1 = i2 := by
      injection h with h
      exact of_decide_eq_true h
    by_contra hne
    have hab : ia ≠ ib := fun he => hne (by rw [he]; simp)
    have hseq : ([x, JSValue.ckey ia] : List JSValue) ≠ [x, .ckey ib] := by
      intro he
      simp only [List.cons.injEq, JSValue.ckey.injEq, and_true] at he
      exact hab he.2
    have : i2 ≠ i1 := by
      rw [← e1, ← e2, ← e1']
      exact internKey_ne hinvb saw hseq
    exact this h12.symm
  · intro h
    have hab : ia = ib := by
      injection h with h
      exact of_decide_eq_true h
    subst hab
    have h12 : i2 = i1 := by
      rw [← e1, ← e2, ← e1']
      exact internKey_stable saw σb [x, .ckey ia]
    rw [h12]
    simp

theorem nested_key_equality_witness :
    (CompositeKey_equal (.ckey 1) (.ckey 1) = .ok true ↔
      CompositeKey_equal (.ckey 0) (.ckey 0) = .ok true) :=
  nested_key_equality false initState inv_initState (.num 2) [.num 1] [.num 1]
    rfl rfl rfl rfl

/-- Claim C5 (code behaviour at the failing input): with a configured
`keyBy` projection, `delete(k)` does *not* apply the projection — it
passes the raw key to the backing map — so after `set(k, v)` the call
`delete(k)` returns `false` and the entry remains, contradicting the
claim (and §6.2 of the specification, which requires `delete` to
project like `get`/`set`/`has`). -/
theorem mpDelete_ignores_projection :
    (mpDelete (mpSet uuidProj ⟨[]⟩ initState (.obj 1) (.num 99)).1 (.obj 1)).1
        = false ∧
      mpSize (mpDelete (mpSet uuidProj ⟨[]⟩ initState (.obj 1) (.num 99)).1
        (.obj 1)).2 = 1 := by
  decide

/-- Claim C6 (scenario S4): a map container configured with the
projection `v => new CompositeKey(v.x, v.y)`, after
`set(obj1, "A")` with `obj1 = (x:0, y:0, z:1)`, answers `get(obj2)`
with `"A"` for the distinct object `obj2 = (x:0, y:0, z:99)`: both
`set` and `get` replace the projected composite key by its shared
identity token as the internal map key. -/
theorem s4_get_returns_A (saw : Bool) :
    (mpGet (s4keyBy saw)
        (mpSet (s4keyBy saw) ⟨[]⟩ initState (.obj 1) (.str "A")).1
        (mpSet (s4keyBy saw) ⟨[]⟩ initState (.obj 1) (.str "A")).2
        (.obj 2)).1 = some (.str "A") := by
  cases saw <;> rfl

/-- Claim C7, counterexample: two records built from the same two
key→value properties in opposite insertion orders, whose string keys
are the two canonically equivalent spellings of "é" — distinct JS
strings that ECMA-402 requires `localeCompare` to tie
(`tieCollation eAcute eCombining = 0`).  The stable sort then keeps
each record's insertion order, the two flattened argument sequences
differ, and the two composite keys compare *unequal*, refuting the
claim as stated.  The `newKey` conjuncts instantiate the claim's
hypotheses exactly. -/
theorem record_key_order_counterexample :
    tieProps1.Perm tieProps2 ∧
    (tieProps1.map Prod.fst).Nodup ∧
    eAcute ≠ eCombining ∧
    tieCollation eAcute eCombining = 0 ∧
    newKey false initState tieSeq1 = .ok tieKey1 ∧
    newKey false tieKey1.2 tieSeq2 = .ok tieKey2 ∧
    CompositeKey_equal (.ckey tieKey1.1) (.ckey tieKey2.1) = .ok false := by
  refine ⟨by decide, by decide, by decide, by decide,
    newKey_eq false initState tieSeq1, newKey_eq false tieKey1.2 tieSeq2, ?_⟩
  have hne : tieKey1.1 ≠ tieKey2.1 := by decide
  rw [CompositeKey_equal_ckey, decide_eq_false hne]

/-- Claim C7 (amended): two records built from the same set of
key→value properties in different insertion orders yield composite
keys that compare equal — *provided* the host collation backing
`localeCompare` is consistent and never ties distinct strings (string
property keys or registry names); a real collation ties canonically
equivalent spellings, and the stable sort then preserves insertion
order among them (see the counterexample).  Under that proviso the key
is built over the namespace marker followed by the properties sorted by
`compareKeys` (symbol keys before string keys, registered symbols by
registry name, non-registered symbols by the injective first-seen
numbering), flattened key-then-value with each value canonicalised. -/
theorem record_key_order_independent (saw : Bool)
    (lc : String → String → Int) (htot : CollationTotal lc)
    (htr : CollationTrans lc) (hnt : CollationNoTies lc)
    (f : Nat → Nat) (hf : Function.Injective f) (resolve : JSValue → JSValue)
    (props1 props2 : List (PropKey × JSValue)) (σ : KeyState)
    (hperm : props1.Perm props2) (hnd : (props1.map Prod.fst).Nodup)
    {i1 i2 : Nat} {σ1 σ2 : KeyState}
    (h1 : newKey saw σ (keyForRecordSeq lc f resolve props1) = .ok (i1, σ1))
    (h2 : newKey saw σ1 (keyForRecordSeq lc f resolve props2) = .ok (i2, σ2)) :
    CompositeKey_equal (.ckey i1) (.ckey i2) = .ok true := by
  rw [← keyForRecordSeq_perm htot htr hnt hf resolve hperm hnd] at h2
  obtain ⟨e1, e1'⟩ := newKey_ok h1
  obtain ⟨e2, _⟩ := newKey_ok h2
  have h12 : i2 = i1 := by
    rw [← e1, ← e2, ← e1']
    exact internKey_stable saw σ _
  rw [CompositeKey_equal_ckey, h12]
  simp

theorem record_key_order_independent_witness :
    CompositeKey_equal (.ckey 0) (.ckey 0) = .ok true :=
  record_key_order_independent false lexCompare lexCompare_total
    lexCompare_trans lexCompare_noTies (fun n => n) (fun _ _ h => h) (fun v => v)
    [(.symKey (.unique 1), .num 1), (.symKey (.unique 2), .num 2)]
    [(.symKey (.unique 2), .num 2), (.symKey (.unique 1), .num 1)]
    initState (by decide) (by decide) (by rfl) (by rfl)

/-- Claim C8: for every input sequence, the interning descent never
raises an `InternalInvariantError`: the terminal `getId` — whose
assertion `index >= values.length` is modelled in `abstractGetId` — is
only reached with the index at or past the end of the sequence, so key
construction always succeeds. -/
theorem newKey_never_internal_error (saw : Bool) (σ : KeyState)
    (values : List JSValue) :
    newKey saw σ values = .ok (internKey saw σ values) :=
  newKey_eq saw σ values

/-- Claim C9: whenever `a` or `b` fails the composite-key brand check,
`CompositeKey.equal(a, b)` surfaces the `MisuseError` thrown by the
private-field access `a.#id` / `b.#id` instead of returning a
boolean. -/
theorem equal_misuse_error (a b : JSValue)
    (h : isCompositeKey a = false ∨ isCompositeKey b = false) :
    CompositeKey_equal a b = .error () := by
  cases a <;> cases b <;>
    simp_all [isCompositeKey, CompositeKey_equal, readKeyId]

theorem equal_misuse_error_witness :
    CompositeKey_equal (.num 0) (.ckey 0) = .error () :=
  equal_misuse_error (.num 0) (.ckey 0) (Or.inl rfl)

/-- Claim C10: on a map container with a `keyBy` projection, when
`set(k2, v2)` hits the internal key of an existing entry, the backing
map's `set` overwrites the stored `[original key, value]` pair in
place: the size is unchanged and iteration (`keys`/`values`/`entries`)
yields the single pair `[k2, v2]` — the most recent original key
wins. -/
theorem mpSet_replaces (p : Proj) (σ0 : KeyState) (k1 v1 k2 v2 : JSValue)
    {m1 m2 : MapState} {σ1 σ2 : KeyState}
    (h1 : mpSet p ⟨[]⟩ σ0 k1 v1 = (m1, σ1))
    (h2 : mpSet p m1 σ1 k2 v2 = (m2, σ2))
    (hsame : (applyKeyBy p k2 σ1).1 = (applyKeyBy p k1 σ0).1) :
    mpSize m2 = mpSize m1 ∧ mpEntriesList m2 = [(k2, v2)] ∧
      mpKeysList m2 = [k2] ∧ mpValuesList m2 = [v2] := by
  rcases hA : applyKeyBy p k1 σ0 with ⟨ik1, σA⟩
  simp only [mpSet, hA] at h1
  injection h1 with hm1 hs1
  subst hm1
  rcases hB : applyKeyBy p k2 σ1 with ⟨ik2, σB⟩
  have hik : ik2 = ik1 := by
    rw [hA, hB] at hsame
    exact hsame
  subst hik
  simp only [mpSet, hB] at h2
  injection h2 with hm2 hs2
  subst hm2
  simp [omSet, mpSize, mpEntriesList, mpKeysList, mpValuesList]

theorem mpSet_replaces_witness :
    mpSize (⟨[(IKey.val (.num 1), (JSValue.obj 2, JSValue.num 5))]⟩ : MapState) =
        mpSize (⟨[(IKey.val (.num 1), (JSValue.obj 1, JSValue.num 99))]⟩ : MapState) ∧
      mpEntriesList ⟨[(IKey.val (.num 1), (.obj 2, .num 5))]⟩ =
        [(JSValue.obj 2, JSValue.num 5)] ∧
      mpKeysList ⟨[(IKey.val (.num 1), (.obj 2, .num 5))]⟩ = [JSValue.obj 2] ∧
      mpValuesList ⟨[(IKey.val (.num 1), (.obj 2, .num 5))]⟩ = [JSValue.num 5] :=
  mpSet_replaces uuidProj initState (.obj 1) (.num 99) (.obj 2) (.num 5)
    rfl rfl rfl

end KeyBy
